import Mathlib

set_option maxHeartbeats 1000000

/-
Shallow embedding of the College-chatbot backend core:
the in-memory vector store (src/services/vectorDb.js), the JSON segmenter and
indexer (indexer.js), and the chat route (src/routes/chat.js).

Modelling conventions:
- JS numbers are modelled as real numbers; the vectors handled by the store are
  ordinary finite-precision values in the source and exact reals here.
- JS arrays are Lean lists; JS objects with fixed fields are structures.
- Array.prototype.sort with the comparator (a, b) => b.score - a.score is a
  stable sort (required by ES2019) ordering records by descending score; it is
  embedded as List.mergeSort with the Boolean relation b.score <= a.score.
- Mutation of module state (the collection array, the processed-hash map) is
  embedded as explicit state passing.
-/

/-- Provenance metadata attached to every chunk; field `sect` embeds the JS
field named section (a Lean keyword). -/
structure ChunkMeta where
  source : String
  path : String
  sect : String
deriving DecidableEq, Repr

/-- One record of the in-memory vector store (vectorDb.js pushes objects with
fields id, embedding, metadata, document). -/
structure StoreRecord where
  id : String
  embedding : List ℝ
  metadata : ChunkMeta
  document : String

/-- A record together with the per-query cosine score, as built by
collection.map(item => (spread item, score)) in searchSimilarChunks. -/
structure ScoredRecord extends StoreRecord where
  score : ℝ

/-- The ChromaDB-shaped return value of searchSimilarChunks: each field is a
singleton outer list wrapping the per-query lists. -/
structure QueryResult where
  documents : List (List String)
  metadatas : List (List ChunkMeta)
  distances : List (List ℝ)

/-- cosineSimilarity from vectorDb.js: one loop over the indices of vecA
accumulating the dot product and both squared norms, returning 0 when either
squared norm is 0.  The loop is embedded as sums over the zipped lists, which
agrees with the source whenever vecA is at most as long as vecB (in the store
all embeddings have the same dimension). -/
noncomputable def cosineSimilarity (vecA vecB : List ℝ) : ℝ :=
  let dotProduct := ((vecA.zip vecB).map fun p => p.1 * p.2).sum
  let normA := ((vecA.zip vecB).map fun p => p.1 * p.1).sum
  let normB := ((vecA.zip vecB).map fun p => p.2 * p.2).sum
  if normA = 0 ∨ normB = 0 then 0 else dotProduct / (Real.sqrt normA * Real.sqrt normB)

/-- collection.map(item => (spread item, score: cosineSimilarity(q, item.embedding))). -/
noncomputable def scoreCollection (queryEmbedding : List ℝ) (collection : List StoreRecord) :
    List ScoredRecord :=
  collection.map fun item => ⟨item, cosineSimilarity queryEmbedding item.embedding⟩

/-- scored.sort((a, b) => b.score - a.score): a stable sort by descending score. -/
noncomputable def sortByScoreDesc (scored : List ScoredRecord) : List ScoredRecord :=
  scored.mergeSort fun a b => decide (b.score ≤ a.score)

/-- The first topK entries of the sorted scored collection (scored.slice(0, topK)). -/
noncomputable def topResults (queryEmbedding : List ℝ) (topK : ℕ)
    (collection : List StoreRecord) : List ScoredRecord :=
  (sortByScoreDesc (scoreCollection queryEmbedding collection)).take topK

/-- searchSimilarChunks from vectorDb.js. -/
noncomputable def searchSimilarChunks (queryEmbedding : List ℝ) (topK : ℕ)
    (collection : List StoreRecord) : QueryResult :=
  if collection.length = 0 then ⟨[[]], [[]], [[]]⟩
  else
    let top := topResults queryEmbedding topK collection
    ⟨[top.map fun i => i.document], [top.map fun i => i.metadata],
      [top.map fun i => i.score]⟩

/-- State-passing form of searchSimilarChunks.  In the source the only array
mutation is the in-place sort, which acts on the fresh array produced by
collection.map; the module-level collection binding is returned unchanged. -/
noncomputable def searchSimilarChunksSt (queryEmbedding : List ℝ) (topK : ℕ)
    (collection : List StoreRecord) : QueryResult × List StoreRecord :=
  (searchSimilarChunks queryEmbedding topK collection, collection)

/-- addChunksToDb from vectorDb.js: pushes one record per input tuple onto the
collection (the source loops over ids.length; callers pass equal-length lists). -/
def addChunksToDb (ids : List String) (embeddings : List (List ℝ))
    (metadatas : List ChunkMeta) (documents : List String)
    (collection : List StoreRecord) : List StoreRecord :=
  collection ++ (ids.zip (embeddings.zip (metadatas.zip documents))).map
    fun p => ⟨p.1, p.2.1, p.2.2.1, p.2.2.2⟩

/-- Norm written as the spec words it: the square root of the sum of squares. -/
noncomputable def specNorm (v : List ℝ) : ℝ :=
  Real.sqrt ((v.map fun x => x * x).sum)

/-- Dot product written as the spec words it. -/
def specDot (a b : List ℝ) : ℝ :=
  ((a.zip b).map fun p => p.1 * p.2).sum

/-! Helper lemmas about sums of squares and zipped products. -/

theorem sumSq_nonneg (v : List ℝ) : 0 ≤ (v.map fun x => x * x).sum := by
  apply List.sum_nonneg
  intro x hx
  obtain ⟨y, _, rfl⟩ := List.mem_map.mp hx
  exact mul_self_nonneg y

theorem sumSq_pos (v : List ℝ) (hv : ∃ x ∈ v, x ≠ 0) :
    0 < (v.map fun x => x * x).sum := by
  induction v with
  | nil => simp at hv
  | cons a t ih =>
    obtain ⟨x, hx, hx0⟩ := hv
    simp only [List.map_cons, List.sum_cons]
    rcases List.mem_cons.mp hx with rfl | hxt
    · exact add_pos_of_pos_of_nonneg (mul_self_pos.mpr hx0) (sumSq_nonneg t)
    · exact add_pos_of_nonneg_of_pos (mul_self_nonneg a) (ih ⟨x, hxt, hx0⟩)

theorem zip_self_mul (v : List ℝ) :
    ((v.zip v).map fun p => p.1 * p.2) = v.map fun x => x * x := by
  induction v with
  | nil => rfl
  | cons a t ih => simpa using ih

theorem zip_neg_mul (v : List ℝ) :
    ((v.zip (v.map fun x => -x)).map fun p => p.1 * p.2) =
      v.map fun x => -(x * x) := by
  induction v with
  | nil => rfl
  | cons a t ih => simpa using ih

theorem zip_neg_sq_right (v : List ℝ) :
    ((v.zip (v.map fun x => -x)).map fun p => p.2 * p.2) =
      v.map fun x => x * x := by
  induction v with
  | nil => rfl
  | cons a t ih => simpa [neg_mul_neg] using ih

theorem zip_neg_sq_left (v : List ℝ) :
    ((v.zip (v.map fun x => -x)).map fun p => p.1 * p.1) =
      v.map fun x => x * x := by
  induction v with
  | nil => rfl
  | cons a t ih => simpa using ih

theorem zip_sq_of_length_eq (a : List ℝ) :
    ∀ b : List ℝ, a.length = b.length →
      (((a.zip b).map fun p => p.1 * p.1).sum = (a.map fun x => x * x).sum ∧
       ((a.zip b).map fun p => p.2 * p.2).sum = (b.map fun x => x * x).sum) := by
  induction a with
  | nil =>
    intro b hb
    cases b with
    | nil => simp
    | cons x t => simp at hb
  | cons x t ih =>
    intro b hb
    cases b with
    | nil => simp at hb
    | cons y s =>
      have hs := ih s (by simpa using hb)
      constructor
      · simpa using congrArg (fun r => x * x + r) hs.1
      · simpa using congrArg (fun r => y * y + r) hs.2

theorem sum_map_negR (l : List ℝ) : (l.map fun x => -(x * x)).sum = -(l.map fun x => x * x).sum := by
  induction l with
  | nil => simp
  | cons a t ih => simp [ih]; ring

theorem cosineSimilarity_def (a b : List ℝ) :
    cosineSimilarity a b =
      if ((a.zip b).map fun p => p.1 * p.1).sum = 0 ∨
         ((a.zip b).map fun p => p.2 * p.2).sum = 0 then 0
      else specDot a b /
        (Real.sqrt (((a.zip b).map fun p => p.1 * p.1).sum) *
         Real.sqrt (((a.zip b).map fun p => p.2 * p.2).sum)) := rfl

/-- C2: cosineSimilarity(a, b) equals dot(a,b) divided by the product of norms,
is 0 whenever either norm is 0, and for every non-zero vector v,
cosineSimilarity(v, v) = 1 and cosineSimilarity(v, -v) = -1. -/
theorem cosineSimilarity_correct (a b v : List ℝ) (hab : a.length = b.length)
    (hv : ∃ x ∈ v, x ≠ 0) :
    (cosineSimilarity a b =
      if specNorm a = 0 ∨ specNorm b = 0 then 0
      else specDot a b / (specNorm a * specNorm b)) ∧
    cosineSimilarity v v = 1 ∧
    cosineSimilarity v (v.map fun x => -x) = -1 := by
  have hvpos := sumSq_pos v hv
  refine ⟨?_, ?_, ?_⟩
  · obtain ⟨hA, hB⟩ := zip_sq_of_length_eq a b hab
    rw [cosineSimilarity_def, hA, hB]
    have ea : specNorm a = 0 ↔ (a.map fun x => x * x).sum = 0 :=
      Real.sqrt_eq_zero (sumSq_nonneg a)
    have eb : specNorm b = 0 ↔ (b.map fun x => x * x).sum = 0 :=
      Real.sqrt_eq_zero (sumSq_nonneg b)
    exact if_congr (or_congr ea.symm eb.symm) rfl rfl
  · obtain ⟨h1, h2⟩ := zip_sq_of_length_eq v v rfl
    rw [cosineSimilarity_def, h1, h2]
    have hd : specDot v v = (v.map fun x => x * x).sum := by
      simp [specDot, zip_self_mul]
    rw [hd, if_neg (by simp [hvpos.ne']),
      Real.mul_self_sqrt (sumSq_nonneg v), div_self hvpos.ne']
  · rw [cosineSimilarity_def,
      congrArg List.sum (zip_neg_sq_left v), congrArg List.sum (zip_neg_sq_right v)]
    have hd : specDot v (v.map fun x => -x) = -(v.map fun x => x * x).sum := by
      simp only [specDot, zip_neg_mul]
      exact sum_map_negR v
    rw [hd, if_neg (by simp [hvpos.ne']),
      Real.mul_self_sqrt (sumSq_nonneg v), neg_div, div_self hvpos.ne']

/-- Witness for C2 at concrete inputs. -/
theorem cosineSimilarity_correct_witness :
    ([(1 : ℝ), 2].length = [(3 : ℝ), 4].length) ∧ (∃ x ∈ [(1 : ℝ)], x ≠ 0) ∧
    ((cosineSimilarity [(1 : ℝ), 2] [(3 : ℝ), 4] =
      if specNorm [(1 : ℝ), 2] = 0 ∨ specNorm [(3 : ℝ), 4] = 0 then 0
      else specDot [(1 : ℝ), 2] [(3 : ℝ), 4] /
        (specNorm [(1 : ℝ), 2] * specNorm [(3 : ℝ), 4])) ∧
     cosineSimilarity [(1 : ℝ)] [(1 : ℝ)] = 1 ∧
     cosineSimilarity [(1 : ℝ)] ([(1 : ℝ)].map fun x => -x) = -1) :=
  ⟨rfl, ⟨1, by simp⟩, cosineSimilarity_correct _ _ _ rfl ⟨1, by simp⟩⟩

/-- C6: on an empty store every query returns the empty QueryResult (one empty
inner list per field), without any error. -/
theorem searchSimilarChunks_empty (queryEmbedding : List ℝ) (topK : ℕ) :
    searchSimilarChunks queryEmbedding topK [] = ⟨[[]], [[]], [[]]⟩ := rfl

/-- C10: a query never changes the stored collection; the result is computed
from per-query copies of the records. -/
theorem searchSimilarChunks_frame (q : List ℝ) (k : ℕ) (coll : List StoreRecord) :
    (searchSimilarChunksSt q k coll).2 = coll ∧
    (searchSimilarChunksSt q k coll).1 = searchSimilarChunks q k coll :=
  ⟨rfl, rfl⟩

theorem descLe_trans : ∀ a b c : ScoredRecord,
    (fun a b : ScoredRecord => decide (b.score ≤ a.score)) a b →
    (fun a b : ScoredRecord => decide (b.score ≤ a.score)) b c →
    (fun a b : ScoredRecord => decide (b.score ≤ a.score)) a c := by
  intro a b c h1 h2
  simp only [decide_eq_true_eq] at h1 h2 ⊢
  exact le_trans h2 h1

theorem descLe_total : ∀ a b : ScoredRecord,
    ((fun a b : ScoredRecord => decide (b.score ≤ a.score)) a b ||
     (fun a b : ScoredRecord => decide (b.score ≤ a.score)) b a) := by
  intro a b
  simp only [Bool.or_eq_true, decide_eq_true_eq]
  exact le_total b.score a.score

/-- C1: query results are the first topK entries of the stably descending-sorted
scored collection: scores are non-increasing, the result length is
min(topK, storeSize), and records with equal scores keep insertion order. -/
theorem searchSimilarChunks_topK (q : List ℝ) (k : ℕ) (coll : List StoreRecord) :
    searchSimilarChunks q k coll =
      ⟨[(topResults q k coll).map fun i => i.document],
       [(topResults q k coll).map fun i => i.metadata],
       [(topResults q k coll).map fun i => i.score]⟩ ∧
    (topResults q k coll).Pairwise (fun a b => b.score ≤ a.score) ∧
    (topResults q k coll).length = min k coll.length ∧
    (∀ c : ℝ, ((topResults q k coll).filter fun r => decide (r.score = c)).Sublist
        ((scoreCollection q coll).filter fun r => decide (r.score = c))) := by
  refine ⟨?_, ?_, ?_, ?_⟩
  · by_cases h : coll.length = 0
    · rcases List.length_eq_zero.mp h with rfl
      simp [searchSimilarChunks, topResults, sortByScoreDesc, scoreCollection]
    · unfold searchSimilarChunks
      rw [if_neg h]
  · have hs := List.sorted_mergeSort descLe_trans descLe_total (scoreCollection q coll)
    have hsub : List.Sublist (topResults q k coll)
        (sortByScoreDesc (scoreCollection q coll)) := List.take_sublist k _
    exact (hs.sublist hsub).imp fun h => of_decide_eq_true h
  · simp [topResults, sortByScoreDesc, scoreCollection]
  · intro c
    have hApw : ((scoreCollection q coll).filter fun r => decide (r.score = c)).Pairwise
        (fun a b : ScoredRecord => decide (b.score ≤ a.score) = true) := by
      apply List.pairwise_of_forall_mem_list
      intro x hx y hy
      have hxc : x.score = c := by
        have := (List.mem_filter.mp hx).2
        exact of_decide_eq_true this
      have hyc : y.score = c := by
        have := (List.mem_filter.mp hy).2
        exact of_decide_eq_true this
      simp [hxc, hyc]
    have hsub2 : List.Sublist ((scoreCollection q coll).filter fun r => decide (r.score = c))
        ((scoreCollection q coll).mergeSort fun a b => decide (b.score ≤ a.score)) :=
      List.sublist_mergeSort descLe_trans descLe_total hApw
        (List.filter_sublist (scoreCollection q coll))
    have hperm : (((scoreCollection q coll).mergeSort fun a b =>
          decide (b.score ≤ a.score)).filter fun r => decide (r.score = c)).length =
        ((scoreCollection q coll).filter fun r => decide (r.score = c)).length :=
      ((List.mergeSort_perm (scoreCollection q coll) _).filter _).length_eq
    have hAf : (((scoreCollection q coll).filter fun r => decide (r.score = c)).filter
        fun r => decide (r.score = c)) =
        ((scoreCollection q coll).filter fun r => decide (r.score = c)) :=
      List.filter_eq_self.mpr fun a ha => (List.mem_filter.mp ha).2
    have heq : ((scoreCollection q coll).filter fun r => decide (r.score = c)) =
        (((scoreCollection q coll).mergeSort fun a b =>
          decide (b.score ≤ a.score)).filter fun r => decide (r.score = c)) := by
      refine List.Sublist.eq_of_length ?_ hperm.symm
      have h2 := hsub2.filter fun r => decide (r.score = c)
      rwa [hAf] at h2
    have htake : List.Sublist ((topResults q k coll).filter fun r => decide (r.score = c))
        ((((scoreCollection q coll).mergeSort fun a b =>
          decide (b.score ≤ a.score))).filter fun r => decide (r.score = c)) :=
      (List.take_sublist k _).filter _
    rw [← heq] at htake
    exact htake

/-
Structured documents handled by the segmenter (indexer.js): the recursive
sum type of JSON values.  Arrays and objects carry their own list types so that
all traversals are plain structural recursions.  JS numbers are restricted to
integers, whose JS string rendering is ordinary decimal as in Lean.
-/
mutual
inductive Json where
  | str : String → Json
  | num : Int → Json
  | bool : Bool → Json
  | null : Json
  | arr : JsonArr → Json
  | obj : JsonObj → Json
deriving DecidableEq
inductive JsonArr where
  | nil : JsonArr
  | cons : Json → JsonArr → JsonArr
deriving DecidableEq
inductive JsonObj where
  | nil : JsonObj
  | cons : String → Json → JsonObj → JsonObj
deriving DecidableEq
end

/-- JS template rendering of a primitive value inside a line.  The arr and obj
cases are never reached by the traversal, which recurses into them instead. -/
def Json.render : Json → String
  | .str s => s
  | .num n => toString n
  | .bool b => cond b "true" "false"
  | .null => "null"
  | .arr _ => ""
  | .obj _ => ""

/-- True for the four non-structured primitive document shapes. -/
def Json.isPrim : Json → Bool
  | .arr _ => false
  | .obj _ => false
  | _ => true

/-- The ASCII whitespace characters matched by the JS regexes and trim used in
indexer.js (the source documents contain no exotic Unicode whitespace). -/
def isJsWs (c : Char) : Bool :=
  c == ' ' || c == '\t' || c == '\n' || c == '\r' ||
    c == Char.ofNat 11 || c == Char.ofNat 12

/-- replace(/([A-Z])/g, space dollar-one): a space inserted before every ASCII
uppercase letter. -/
def insertSpaceBeforeUpper : List Char → List Char
  | [] => []
  | c :: cs =>
      (if c.isUpper then [' ', c] else [c]) ++ insertSpaceBeforeUpper cs

/-- replace of underscore and dash by a space. -/
def dashUnderscoreToSpace (l : List Char) : List Char :=
  l.map fun c => if c = '_' ∨ c = '-' then ' ' else c

/-- replace(/^./, toUpperCase): uppercase the first character; the regex dot
does not match a line terminator. -/
def upperFirst : List Char → List Char
  | [] => []
  | c :: cs =>
      if c = '\n' ∨ c = '\r' ∨ c = ' ' ∨ c = ' ' then c :: cs
      else c.toUpper :: cs

/-- Character-level left-and-right trim matching String.prototype.trim. -/
def trimRightChars (l : List Char) : List Char :=
  (l.reverse.dropWhile isJsWs).reverse

/-- jsTrimChars is trim: drop whitespace from the left, then from the right. -/
def jsTrimChars (l : List Char) : List Char :=
  trimRightChars (l.dropWhile isJsWs)

/-- String form of trim. -/
def jsTrim (s : String) : String :=
  String.mk (jsTrimChars s.data)

/-- toReadableLabel from indexer.js. -/
def toReadableLabel (key : String) : String :=
  if key = "" then ""
  else jsTrim (String.mk (upperFirst (dashUnderscoreToSpace
    (insertSpaceBeforeUpper key.data))))

/-
jsonToReadableTextLines from indexer.js: the recursive traversal producing
one readable sentence per leaf primitive.  arrLines and objLines embed the
array forEach and the Object.entries loop.
-/
mutual
def jsonToReadableTextLines : Json → String → List String
  | .arr items, parentKey => arrLines items parentKey
  | .obj fields, parentKey => objLines fields parentKey
  | j, parentKey =>
      if parentKey ≠ "" then [parentKey ++ ": " ++ j.render ++ "."]
      else [j.render ++ "."]
def arrLines : JsonArr → String → List String
  | .nil, _ => []
  | .cons item rest, parentKey =>
      jsonToReadableTextLines item parentKey ++ arrLines rest parentKey
def objLines : JsonObj → String → List String
  | .nil, _ => []
  | .cons key value rest, parentKey =>
      (let ctx := if parentKey ≠ "" then parentKey ++ " " ++ toReadableLabel key
                  else toReadableLabel key
       match value with
       | .arr a => jsonToReadableTextLines (.arr a) ctx
       | .obj o => jsonToReadableTextLines (.obj o) ctx
       | v => [ctx ++ ": " ++ v.render ++ "."]) ++ objLines rest parentKey
end

/-- line.split(/\s+/): tokens separated by maximal whitespace runs, with an
empty leading token when the line starts with whitespace and an empty trailing
token when it ends with whitespace.  The Bool is true inside a whitespace run;
acc holds the reversed current token. -/
def splitWsAux : List Char → Bool → List Char → List String
  | [], false, acc => [String.mk acc.reverse]
  | [], true, _ => [""]
  | c :: cs, false, acc =>
      if isJsWs c then String.mk acc.reverse :: splitWsAux cs true []
      else splitWsAux cs false (c :: acc)
  | c :: cs, true, _ =>
      if isJsWs c then splitWsAux cs true []
      else splitWsAux cs false [c]

/-- JS split(/\s+/) on a string. -/
def splitWsJs (s : String) : List String :=
  splitWsAux s.data false []

/-- allLines[i].split(&#58;)[0] || fileName: the loose section guess. -/
def sectionOf (line fileName : String) : String :=
  let firstSeg := String.mk (line.data.takeWhile fun c => c != ':')
  if firstSeg = "" then fileName else firstSeg

/-- One produced chunk: text plus provenance metadata. -/
structure Chunk where
  text : String
  metadata : ChunkMeta
deriving DecidableEq

/-- Chunk size target of extractChunksFromJson. -/
def TARGET_WORDS : ℕ := 350

/-- Chunk overlap of extractChunksFromJson. -/
def OVERLAP_WORDS : ℕ := 50

/-- The chunk-assembly loop of extractChunksFromJson: walks the rendered lines
carrying currentWords, currentText and the chunks already flushed.  The JS
index test i === allLines.length - 1 is the emptiness of the remaining list. -/
def chunkLoopGo (fileName filePath : String) :
    List String → List String → String → List Chunk → List Chunk
  | [], _, _, chunks => chunks
  | line :: rest, currentWords, currentText, chunks =>
      let cw := currentWords ++ splitWsJs line
      let ct := currentText ++ line ++ " "
      if TARGET_WORDS ≤ cw.length ∨ rest = [] then
        let newChunks := chunks ++
          [⟨"[Source File: " ++ fileName ++ "]\n" ++ jsTrim ct,
            ⟨fileName, filePath, sectionOf line fileName⟩⟩]
        match rest with
        | [] => newChunks
        | r :: rs =>
            let ow := cw.drop (cw.length - OVERLAP_WORDS)
            chunkLoopGo fileName filePath (r :: rs) ow
              (String.intercalate " " ow ++ " ") newChunks
      else chunkLoopGo fileName filePath rest cw ct chunks

/-- extractChunksFromJson from indexer.js.  Reading and JSON.parse of the file
are external: the parsed argument is none when the contents are empty or not
parsable (JSON.parse throws and the catch returns []). -/
def extractChunksFromJson (filePath fileName : String) (parsed : Option Json) :
    List Chunk :=
  match parsed with
  | none => []
  | some data => chunkLoopGo fileName filePath (jsonToReadableTextLines data "") [] "" []

/-- path.basename for POSIX paths: the part after the last slash. -/
def basename (p : String) : String :=
  String.mk ((p.data.reverse.takeWhile fun c => c != '/').reverse)

/-! Segmenter theorems. -/

theorem primLines (j : Json) (pk : String) (hj : j.isPrim = true) :
    ∃ x, jsonToReadableTextLines j pk = [x ++ "."] := by
  by_cases hpk : pk ≠ ""
  · refine ⟨pk ++ ": " ++ j.render, ?_⟩
    cases j <;> simp_all [jsonToReadableTextLines, Json.isPrim, Json.render]
  · refine ⟨j.render, ?_⟩
    cases j <;> simp_all [jsonToReadableTextLines, Json.isPrim, Json.render]

/-- C9: a document that is a single non-structured primitive yields exactly one
chunk, whose text is the provenance header followed by the rendered value with
no key-path context. -/
theorem singlePrimitive_chunk (d : Json) (fp fn : String) (hd : d.isPrim = true) :
    jsonToReadableTextLines d "" = [d.render ++ "."] ∧
    extractChunksFromJson fp fn (some d) =
      [⟨"[Source File: " ++ fn ++ "]\n" ++ jsTrim (d.render ++ "." ++ " "),
        ⟨fn, fp, sectionOf (d.render ++ ".") fn⟩⟩] := by
  have hl : jsonToReadableTextLines d "" = [d.render ++ "."] := by
    cases d <;> simp_all [jsonToReadableTextLines, Json.isPrim, Json.render]
  refine ⟨hl, ?_⟩
  simp [extractChunksFromJson, hl, chunkLoopGo]

/-- Witness for C9 at a concrete primitive document. -/
theorem singlePrimitive_chunk_witness :
    (Json.str "Hi").isPrim = true ∧
    (jsonToReadableTextLines (Json.str "Hi") "" = [(Json.str "Hi").render ++ "."] ∧
     extractChunksFromJson "data/a.json" "a.json" (some (Json.str "Hi")) =
       [⟨"[Source File: " ++ "a.json" ++ "]\n" ++
           jsTrim ((Json.str "Hi").render ++ "." ++ " "),
         ⟨"a.json", "data/a.json", sectionOf ((Json.str "Hi").render ++ ".") "a.json"⟩⟩]) :=
  ⟨rfl, singlePrimitive_chunk (Json.str "Hi") "data/a.json" "a.json" rfl⟩

theorem mem_singleton_dot {l x : String} (h : l ∈ [x ++ "."]) :
    ∃ u, l.data = u ++ ['.'] := by
  rw [List.mem_singleton] at h
  subst h
  exact ⟨x.data, rfl⟩

theorem prim_line_dot (j : Json) (pk l : String) (hj : j.isPrim = true)
    (h : l ∈ jsonToReadableTextLines j pk) : ∃ u, l.data = u ++ ['.'] := by
  obtain ⟨x, hx⟩ := primLines j pk hj
  rw [hx] at h
  exact mem_singleton_dot h

/-- The per-entry lines of one object field, as a standalone restatement of the
match inside objLines (proved equal by rfl below). -/
def entryOf (key : String) (value : Json) (pk : String) : List String :=
  match value with
  | .arr a => jsonToReadableTextLines (.arr a)
      (if pk ≠ "" then pk ++ " " ++ toReadableLabel key else toReadableLabel key)
  | .obj o => jsonToReadableTextLines (.obj o)
      (if pk ≠ "" then pk ++ " " ++ toReadableLabel key else toReadableLabel key)
  | v => [(if pk ≠ "" then pk ++ " " ++ toReadableLabel key else toReadableLabel key) ++
      ": " ++ v.render ++ "."]

theorem arrLines_cons (item : Json) (rest : JsonArr) (pk : String) :
    arrLines (JsonArr.cons item rest) pk =
      jsonToReadableTextLines item pk ++ arrLines rest pk := rfl

theorem objLines_cons (key : String) (value : Json) (rest : JsonObj) (pk : String) :
    objLines (JsonObj.cons key value rest) pk =
      entryOf key value pk ++ objLines rest pk := by
  cases value <;> rfl

theorem lines_dot_all : ∀ (n : ℕ),
    (∀ (j : Json), sizeOf j ≤ n → ∀ (pk l : String),
        l ∈ jsonToReadableTextLines j pk → ∃ u, l.data = u ++ ['.']) ∧
    (∀ (items : JsonArr), sizeOf items ≤ n → ∀ (pk l : String),
        l ∈ arrLines items pk → ∃ u, l.data = u ++ ['.']) ∧
    (∀ (fields : JsonObj), sizeOf fields ≤ n → ∀ (pk l : String),
        l ∈ objLines fields pk → ∃ u, l.data = u ++ ['.']) := by
  intro n
  induction n with
  | zero =>
    refine ⟨?_, ?_, ?_⟩ <;> (intro x hx; exfalso; cases x <;> simp at hx)
  | succ n ih =>
    obtain ⟨ihj, iha, iho⟩ := ih
    refine ⟨?_, ?_, ?_⟩
    · intro j hj pk l h
      cases j with
      | arr items =>
          refine iha items ?_ pk l h
          simp at hj
          omega
      | obj fields =>
          refine iho fields ?_ pk l h
          simp at hj
          omega
      | str s => exact prim_line_dot (.str s) pk l rfl h
      | num m => exact prim_line_dot (.num m) pk l rfl h
      | bool b => exact prim_line_dot (.bool b) pk l rfl h
      | null => exact prim_line_dot .null pk l rfl h
    · intro items hi pk l h
      cases items with
      | nil => simp [arrLines] at h
      | cons item rest =>
          rw [arrLines_cons, List.mem_append] at h
          simp at hi
          rcases h with h1 | h2
          · exact ihj item (by omega) pk l h1
          · exact iha rest (by omega) pk l h2
    · intro fields hf pk l h
      cases fields with
      | nil => simp [objLines] at h
      | cons key value rest =>
          rw [objLines_cons, List.mem_append] at h
          simp at hf
          rcases h with h1 | h2
          · cases value with
            | arr a => exact ihj (.arr a) (by simp at hf ⊢; omega) _ l h1
            | obj o => exact ihj (.obj o) (by simp at hf ⊢; omega) _ l h1
            | str s => exact mem_singleton_dot (by simpa [entryOf] using h1)
            | num m => exact mem_singleton_dot (by simpa [entryOf] using h1)
            | bool b => exact mem_singleton_dot (by simpa [entryOf] using h1)
            | null => exact mem_singleton_dot (by simpa [entryOf] using h1)
          · exact iho rest (by omega) pk l h2

theorem json_lines_dot (j : Json) (pk l : String)
    (h : l ∈ jsonToReadableTextLines j pk) : ∃ u, l.data = u ++ ['.'] :=
  (lines_dot_all (sizeOf j)).1 j le_rfl pk l h


/-- A rendered line is well behaved for trimming when it is nonempty, starts
with a non-whitespace character and ends with the closing dot. -/
def goodLine (s : String) : Prop :=
  s.data ≠ [] ∧ isJsWs (s.data.headD ' ') = false ∧ s.data.getLastD ' ' = '.'

theorem goodLine_decomp (s : String) (hg : goodLine s) :
    (∃ c t, s.data = c :: t ∧ isJsWs c = false) ∧ (∃ u, s.data = u ++ ['.']) := by
  obtain ⟨hne, hh, hl⟩ := hg
  constructor
  · rcases hd : s.data with _ | ⟨c, t⟩
    · exact absurd hd hne
    · refine ⟨c, t, rfl, ?_⟩
      rw [hd] at hh
      simpa using hh
  · rcases hr : s.data.reverse with _ | ⟨c, r⟩
    · have : s.data = [] := by simpa using congrArg List.reverse hr
      exact absurd this hne
    · have hdata : s.data = r.reverse ++ [c] := by
        have := congrArg List.reverse hr
        simpa using this
    -- the last character is the head of the reverse
      have hc : c = '.' := by
        rw [hdata, List.getLastD_concat] at hl
        exact hl
      exact ⟨r.reverse, by rw [hdata, hc]⟩

theorem infix_dropWhile_head (c : Char) (t : List Char) (hc : isJsWs c = false) :
    ∀ (A : List Char), ∀ (B T : List Char), A ++ (c :: t) ++ B = T →
      (c :: t) <:+: T.dropWhile isJsWs := by
  intro A
  induction A with
  | nil =>
    intro B T hT
    have hT2 : T = c :: (t ++ B) := by simpa using hT.symm
    subst hT2
    rw [List.dropWhile_cons, if_neg (by simp [hc])]
    exact ⟨[], B, by simp⟩
  | cons a A ih =>
    intro B T hT
    have hT2 : T = a :: (A ++ (c :: t) ++ B) := by simpa [List.append_assoc] using hT.symm
    subst hT2
    rw [List.dropWhile_cons]
    by_cases ha : isJsWs a = true
    · rw [if_pos ha]
      exact ih B _ rfl
    · rw [if_neg ha]
      exact ⟨a :: A, B, by simp⟩

theorem goodLine_infix_jsTrim (s : String) (T : List Char) (hg : goodLine s)
    (hinf : s.data <:+: T) : s.data <:+: jsTrimChars T := by
  obtain ⟨⟨c, t, hct, hcw⟩, ⟨u, hu⟩⟩ := goodLine_decomp s hg
  have h1 : s.data <:+: T.dropWhile isJsWs := by
    rw [hct] at hinf ⊢
    obtain ⟨A, B, hT⟩ := hinf
    exact infix_dropWhile_head c t hcw A B T hT
  have h2 : s.data.reverse <:+: (T.dropWhile isJsWs).reverse :=
    List.reverse_infix.mpr h1
  have hrev : s.data.reverse = '.' :: u.reverse := by
    rw [hu]
    simp
  have h3 : s.data.reverse <:+: ((T.dropWhile isJsWs).reverse.dropWhile isJsWs) := by
    rw [hrev] at h2 ⊢
    obtain ⟨A, B, hT⟩ := h2
    exact infix_dropWhile_head '.' u.reverse (by decide) A B _ hT
  have h4 : s.data <:+: ((T.dropWhile isJsWs).reverse.dropWhile isJsWs).reverse := by
    apply List.reverse_infix.mp
    simpa using h3
  exact h4

theorem chunkLoopGo_cons_eq (fn fp line : String) (rest cw : List String)
    (ct : String) (chunks : List Chunk) :
    chunkLoopGo fn fp (line :: rest) cw ct chunks =
      (if TARGET_WORDS ≤ (cw ++ splitWsJs line).length ∨ rest = [] then
        match rest with
        | [] => chunks ++ [⟨"[Source File: " ++ fn ++ "]\n" ++ jsTrim (ct ++ line ++ " "),
            ⟨fn, fp, sectionOf line fn⟩⟩]
        | r :: rs =>
            chunkLoopGo fn fp (r :: rs)
              ((cw ++ splitWsJs line).drop ((cw ++ splitWsJs line).length - OVERLAP_WORDS))
              (String.intercalate " "
                  ((cw ++ splitWsJs line).drop ((cw ++ splitWsJs line).length - OVERLAP_WORDS))
                ++ " ")
              (chunks ++ [⟨"[Source File: " ++ fn ++ "]\n" ++ jsTrim (ct ++ line ++ " "),
                ⟨fn, fp, sectionOf line fn⟩⟩])
      else chunkLoopGo fn fp rest (cw ++ splitWsJs line) (ct ++ line ++ " ") chunks) := by
  cases rest <;> rfl

theorem chunkLoopGo_mono (fn fp : String) :
    ∀ (lines cw : List String) (ct : String) (chunks : List Chunk) (c : Chunk),
      c ∈ chunks → c ∈ chunkLoopGo fn fp lines cw ct chunks
  | [], _, _, chunks, c, hc => hc
  | line :: rest, cw0, ct0, chunks, c, hc => by
      rw [chunkLoopGo_cons_eq]
      by_cases hcond : TARGET_WORDS ≤ (cw0 ++ splitWsJs line).length ∨ rest = []
      · rw [if_pos hcond]
        cases rest with
        | nil => exact List.mem_append_left _ hc
        | cons r rs =>
            exact chunkLoopGo_mono fn fp (r :: rs) _ _ _ c (List.mem_append_left _ hc)
      · rw [if_neg hcond]
        exact chunkLoopGo_mono fn fp rest _ _ _ c hc

theorem infix_flushed (s line fn fp : String) (ct0 : String) (hs : goodLine s)
    (hsin : s.data <:+: (ct0 ++ line ++ " ").data) :
    s.data <:+:
      (Chunk.text ⟨"[Source File: " ++ fn ++ "]\n" ++ jsTrim (ct0 ++ line ++ " "),
        ⟨fn, fp, sectionOf line fn⟩⟩).data := by
  have htr : s.data <:+: jsTrimChars (ct0 ++ line ++ " ").data :=
    goodLine_infix_jsTrim s _ hs hsin
  refine htr.trans ⟨("[Source File: " ++ fn ++ "]\n").data, [], ?_⟩
  simp [jsTrim]

theorem chunkLoopGo_covers (fn fp : String) :
    ∀ (lines cw0 : List String) (ct0 : String) (chunks : List Chunk) (s : String),
      (∀ l ∈ lines, goodLine l) → goodLine s →
      (s ∈ lines ∨ s.data <:+: ct0.data) → lines ≠ [] →
      ∃ c ∈ chunkLoopGo fn fp lines cw0 ct0 chunks, s.data <:+: c.text.data
  | [], _, _, _, _, _, _, _, hne => absurd rfl hne
  | line :: rest, cw0, ct0, chunks, s, hgood, hs, hin, _ => by
      have hct' : s = line ∨ s.data <:+: ct0.data →
          s.data <:+: (ct0 ++ line ++ " ").data := by
        intro h
        rcases h with rfl | h
        · exact ⟨ct0.data, [' '], by simp⟩
        · refine h.trans ⟨[], line.data ++ [' '], by simp⟩
      rw [chunkLoopGo_cons_eq]
      by_cases hcond : TARGET_WORDS ≤ (cw0 ++ splitWsJs line).length ∨ rest = []
      · rw [if_pos hcond]
        cases rest with
        | nil =>
            have hsin : s.data <:+: (ct0 ++ line ++ " ").data := by
              apply hct'
              rcases hin with hmem | hct
              · exact Or.inl (by simpa using hmem)
              · exact Or.inr hct
            exact ⟨_, List.mem_append_right _ (List.mem_singleton_self _),
              infix_flushed s line fn fp ct0 hs hsin⟩
        | cons r rs =>
            rcases hin with hmem | hct
            · rcases List.mem_cons.mp hmem with rfl | hrest
              · refine ⟨_, chunkLoopGo_mono fn fp (r :: rs) _ _ _ _
                    (List.mem_append_right _ (List.mem_singleton_self _)), ?_⟩
                exact infix_flushed s s fn fp ct0 hs (hct' (Or.inl rfl))
              · exact chunkLoopGo_covers fn fp (r :: rs) _ _ _ s
                  (fun l hl => hgood l (List.mem_cons_of_mem _ hl)) hs (Or.inl hrest)
                  (by simp)
            · refine ⟨_, chunkLoopGo_mono fn fp (r :: rs) _ _ _ _
                  (List.mem_append_right _ (List.mem_singleton_self _)), ?_⟩
              exact infix_flushed s line fn fp ct0 hs (hct' (Or.inr hct))
      · rw [if_neg hcond]
        have hne2 : rest ≠ [] := by
          intro h
          exact hcond (Or.inr h)
        refine chunkLoopGo_covers fn fp rest _ _ _ s
          (fun l hl => hgood l (List.mem_cons_of_mem _ hl)) hs ?_ hne2
        rcases hin with hmem | hct
        · rcases List.mem_cons.mp hmem with rfl | hrest
          · exact Or.inr (hct' (Or.inl rfl))
          · exact Or.inl hrest
        · exact Or.inr (hct' (Or.inr hct))

theorem lines_goodLine (d : Json)
    (hstart : ∀ l ∈ jsonToReadableTextLines d "", isJsWs (l.data.headD ' ') = false) :
    ∀ l ∈ jsonToReadableTextLines d "", goodLine l := by
  intro l hl
  obtain ⟨u, hu⟩ := json_lines_dot d "" l hl
  refine ⟨by simp [hu], hstart l hl, ?_⟩
  rw [hu, List.getLastD_concat]

/-- C3 corrected: provided no rendered leaf line begins with a whitespace
character, every leaf primitive of the document appears, rendered with its
context prefix as one line, verbatim inside the text of at least one produced
chunk.  (Without the proviso the leading whitespace of a chunk-initial line is
removed by trim, see the counterexample.) -/
theorem segmentation_completeness (d : Json) (fp fn : String)
    (hstart : ∀ l ∈ jsonToReadableTextLines d "", isJsWs (l.data.headD ' ') = false) :
    ∀ l ∈ jsonToReadableTextLines d "",
      ∃ c ∈ extractChunksFromJson fp fn (some d), l.data <:+: c.text.data := by
  intro l hl
  have hgood := lines_goodLine d hstart
  have hne : jsonToReadableTextLines d "" ≠ [] := by
    intro h
    rw [h] at hl
    simp at hl
  exact chunkLoopGo_covers fn fp (jsonToReadableTextLines d "") [] "" [] l hgood
    (hgood l hl) (Or.inl hl) hne

/-- Counterexample to C3 as stated: for the document that is the bare string
with a leading space, the single rendered leaf line appears in no chunk text,
because trim removes the leading space at the start of the only chunk. -/
theorem segmentation_counterexample :
    ¬ (∀ l ∈ jsonToReadableTextLines (Json.str " x") "",
        ∃ c ∈ extractChunksFromJson "data/a.json" "a.json" (some (Json.str " x")),
          l.data <:+: c.text.data) := by
  decide

/-- Witness for the amended C3 on a concrete one-field document. -/
theorem segmentation_completeness_witness :
    (∀ l ∈ jsonToReadableTextLines
        (Json.obj (JsonObj.cons "head" (Json.str "Alice") JsonObj.nil)) "",
      isJsWs (l.data.headD ' ') = false) ∧
    (∀ l ∈ jsonToReadableTextLines
        (Json.obj (JsonObj.cons "head" (Json.str "Alice") JsonObj.nil)) "",
      ∃ c ∈ extractChunksFromJson "data/a.json" "a.json"
          (some (Json.obj (JsonObj.cons "head" (Json.str "Alice") JsonObj.nil))),
        l.data <:+: c.text.data) :=
  ⟨by decide, segmentation_completeness _ _ _ (by decide)⟩

/-- External collaborators of runIndexer (indexer.js): the discovered file
list, the filesystem read, the SHA-256 digest, JSON.parse, the embedding
capability (none models a thrown provider error for that call), and the
randomUUID stream indexed by a draw counter. -/
structure IndexerEnv where
  files : List String
  readFile : String → String
  sha256 : String → String
  parseJson : String → Option Json
  embed : List String → Option (List (List ℝ))
  uuid : ℕ → String

/-- The module state mutated by the indexer: the processed-hash map, the
vector-store collection, and the uuid draw counter. -/
structure IndexerState where
  processedHashes : List (String × String)
  collection : List StoreRecord
  nextId : ℕ

/-- Map.get on the hash table (newest binding first). -/
def hashLookup (m : List (String × String)) (k : String) : Option String :=
  (m.find? fun p => p.1 == k).map fun p => p.2

/-- Map.set on the hash table: the new binding shadows any older one. -/
def hashSet (m : List (String × String)) (k v : String) : List (String × String) :=
  (k, v) :: m

/-- Grouping into batches of n (the i += BATCH_SIZE slice loop); acc is the
batch currently being filled. -/
def batchesGo (n : ℕ) : List α → List α → List (List α)
  | [], acc => if acc.isEmpty then [] else [acc]
  | x :: xs, acc =>
      if acc.length + 1 = n then (acc ++ [x]) :: batchesGo n xs []
      else batchesGo n xs (acc ++ [x])

/-- chunkData sliced into BATCH_SIZE groups. -/
def batchesOf (n : ℕ) (l : List α) : List (List α) :=
  batchesGo n l []

/-- One iteration of the batch loop in runIndexer: embed the batch texts and
upsert on success, log and skip on failure (the try/catch).  The source also
reshapes a single-vector response (Array.isArray check); in the typed model
that normalisation is the identity.  Returns the records state and the number
of chunks upserted. -/
def processOneBatch (env : IndexerEnv) (st : IndexerState) (batch : List Chunk) :
    IndexerState × ℕ :=
  let texts := batch.map fun c => c.text
  match env.embed texts with
  | none => (st, 0)
  | some embeddings =>
      let ids := (List.range batch.length).map fun j => "id_" ++ env.uuid (st.nextId + j)
      let metadatas := batch.map fun c => c.metadata
      (⟨st.processedHashes,
        addChunksToDb ids embeddings metadatas texts st.collection,
        st.nextId + batch.length⟩, texts.length)

/-- The whole batch loop of one document; also returns the list of argument
lists passed to the embedding capability, in call order.  All batches produced
by batchesOf are nonempty, so the source guard on empty text lists never
fires. -/
def processBatches (env : IndexerEnv) :
    List (List Chunk) → IndexerState → IndexerState × ℕ × List (List String)
  | [], st => (st, 0, [])
  | b :: bs, st =>
      let r1 := processOneBatch env st b
      let r2 := processBatches env bs r1.1
      (r2.1, r1.2 + r2.2.1, (b.map fun c => c.text) :: r2.2.2)

/-- One iteration of the file loop in runIndexer: hash, skip when unchanged,
otherwise segment, run the batch loop and record the digest. -/
def stepFile (env : IndexerEnv) (st : IndexerState) (file : String) :
    IndexerState × ℕ :=
  let currentHash := env.sha256 (env.readFile file)
  if hashLookup st.processedHashes file = some currentHash then (st, 0)
  else
    let chunkData := extractChunksFromJson file (basename file)
      (env.parseJson (env.readFile file))
    let r := processBatches env (batchesOf 10 chunkData) st
    (⟨hashSet r.1.processedHashes file currentHash, r.1.collection, r.1.nextId⟩, r.2.1)

/-- The file loop with the running totalUpserted counter. -/
def runIndexerGo (env : IndexerEnv) : List String → IndexerState → ℕ → IndexerState × ℕ
  | [], st, total => (st, total)
  | f :: fs, st, total =>
      let r := stepFile env st f
      runIndexerGo env fs r.1 (total + r.2)

/-- runIndexer from indexer.js; a missing data directory or an empty scan is
the env.files = [] case. -/
def runIndexer (env : IndexerEnv) (st : IndexerState) : IndexerState × ℕ :=
  runIndexerGo env env.files st 0

/-! Hash-table and indexer lemmas. -/

theorem hashLookup_set_self (m : List (String × String)) (k v : String) :
    hashLookup (hashSet m k v) k = some v := by
  simp [hashLookup, hashSet]

theorem hashLookup_set_other (m : List (String × String)) (k v g : String)
    (h : g ≠ k) : hashLookup (hashSet m k v) g = hashLookup m g := by
  simp only [hashLookup, hashSet, List.find?]
  rw [beq_eq_false_iff_ne.mpr (Ne.symm h)]

theorem processOneBatch_hashes (env : IndexerEnv) (st : IndexerState) (b : List Chunk) :
    (processOneBatch env st b).1.processedHashes = st.processedHashes := by
  cases h : env.embed (b.map fun c => c.text) <;> simp [processOneBatch, h]

theorem processBatches_hashes (env : IndexerEnv) :
    ∀ (bs : List (List Chunk)) (st : IndexerState),
      (processBatches env bs st).1.processedHashes = st.processedHashes
  | [], _ => rfl
  | b :: bs, st => by
      simp only [processBatches]
      rw [processBatches_hashes env bs]
      exact processOneBatch_hashes env st b

theorem addChunksToDb_split (ids : List String) (e : List (List ℝ))
    (m : List ChunkMeta) (d : List String) (coll : List StoreRecord) :
    addChunksToDb ids e m d coll = coll ++ addChunksToDb ids e m d [] := by
  simp [addChunksToDb]

theorem processOneBatch_collection (env : IndexerEnv) (st : IndexerState) (b : List Chunk) :
    ∃ tail, (processOneBatch env st b).1.collection = st.collection ++ tail := by
  cases h : env.embed (b.map fun c => c.text) with
  | none => exact ⟨[], by simp [processOneBatch, h]⟩
  | some embs =>
      refine ⟨addChunksToDb ((List.range b.length).map fun j => "id_" ++ env.uuid (st.nextId + j))
        embs (b.map fun c => c.metadata) (b.map fun c => c.text) [], ?_⟩
      simp [processOneBatch, h, addChunksToDb]

theorem processBatches_collection (env : IndexerEnv) :
    ∀ (bs : List (List Chunk)) (st : IndexerState),
      ∃ tail, (processBatches env bs st).1.collection = st.collection ++ tail
  | [], st => ⟨[], by simp [processBatches]⟩
  | b :: bs, st => by
      obtain ⟨t1, h1⟩ := processOneBatch_collection env st b
      obtain ⟨t2, h2⟩ := processBatches_collection env bs (processOneBatch env st b).1
      refine ⟨t1 ++ t2, ?_⟩
      simp only [processBatches]
      rw [h2, h1, List.append_assoc]

theorem processBatches_calls (env : IndexerEnv) :
    ∀ (bs : List (List Chunk)) (st : IndexerState),
      (processBatches env bs st).2.2 = bs.map fun b => b.map fun c => c.text
  | [], _ => rfl
  | b :: bs, st => by
      simp only [processBatches, List.map_cons]
      rw [processBatches_calls env bs]

theorem stepFile_lookup_self (env : IndexerEnv) (st : IndexerState) (f : String) :
    hashLookup (stepFile env st f).1.processedHashes f =
      some (env.sha256 (env.readFile f)) := by
  by_cases hskip : hashLookup st.processedHashes f = some (env.sha256 (env.readFile f))
  · simp only [stepFile, hskip, if_true]
  · simp [stepFile, hskip, hashLookup_set_self]

theorem stepFile_lookup_other (env : IndexerEnv) (st : IndexerState) (f g : String)
    (h : g ≠ f) :
    hashLookup (stepFile env st f).1.processedHashes g =
      hashLookup st.processedHashes g := by
  by_cases hskip : hashLookup st.processedHashes f = some (env.sha256 (env.readFile f))
  · simp [stepFile, hskip]
  · simp only [stepFile, hskip, if_false]
    rw [hashLookup_set_other _ _ _ _ h, processBatches_hashes]

theorem stepFile_collection (env : IndexerEnv) (st : IndexerState) (f : String) :
    ∃ tail, (stepFile env st f).1.collection = st.collection ++ tail := by
  by_cases hskip : hashLookup st.processedHashes f = some (env.sha256 (env.readFile f))
  · exact ⟨[], by simp [stepFile, hskip]⟩
  · obtain ⟨t, ht⟩ := processBatches_collection env
      (batchesOf 10 (extractChunksFromJson f (basename f) (env.parseJson (env.readFile f)))) st
    exact ⟨t, by simp [stepFile, hskip, ht]⟩

theorem stepFile_skip (env : IndexerEnv) (st : IndexerState) (f : String)
    (h : hashLookup st.processedHashes f = some (env.sha256 (env.readFile f))) :
    stepFile env st f = (st, 0) := by
  simp [stepFile, h]

theorem runIndexerGo_lookup_preserved (env : IndexerEnv) :
    ∀ (fs : List String) (st : IndexerState) (total : ℕ) (g : String),
      hashLookup st.processedHashes g = some (env.sha256 (env.readFile g)) →
      hashLookup (runIndexerGo env fs st total).1.processedHashes g =
        some (env.sha256 (env.readFile g))
  | [], _, _, _, h => h
  | f :: fs, st, total, g, h => by
      simp only [runIndexerGo]
      by_cases hg : g = f
      · subst hg
        exact runIndexerGo_lookup_preserved env fs _ _ g (stepFile_lookup_self env st g)
      · refine runIndexerGo_lookup_preserved env fs _ _ g ?_
        rw [stepFile_lookup_other env st f g hg]
        exact h

theorem runIndexerGo_sets_all (env : IndexerEnv) :
    ∀ (fs : List String) (st : IndexerState) (total : ℕ) (g : String), g ∈ fs →
      hashLookup (runIndexerGo env fs st total).1.processedHashes g =
        some (env.sha256 (env.readFile g))
  | [], _, _, _, h => absurd h (by simp)
  | f :: fs, st, total, g, h => by
      simp only [runIndexerGo]
      rcases List.mem_cons.mp h with rfl | hfs
      · exact runIndexerGo_lookup_preserved env fs _ _ g (stepFile_lookup_self env st g)
      · exact runIndexerGo_sets_all env fs _ _ g hfs

theorem runIndexerGo_all_skip (env : IndexerEnv) :
    ∀ (fs : List String) (st : IndexerState) (total : ℕ),
      (∀ g ∈ fs, hashLookup st.processedHashes g = some (env.sha256 (env.readFile g))) →
      runIndexerGo env fs st total = (st, total)
  | [], _, _, _ => rfl
  | f :: fs, st, total, h => by
      simp only [runIndexerGo, stepFile_skip env st f (h f (by simp))]
      simpa using runIndexerGo_all_skip env fs st total fun g hg =>
        h g (List.mem_cons_of_mem _ hg)

theorem runIndexerGo_collection (env : IndexerEnv) :
    ∀ (fs : List String) (st : IndexerState) (total : ℕ),
      ∃ tail, (runIndexerGo env fs st total).1.collection = st.collection ++ tail
  | [], st, _ => ⟨[], by simp [runIndexerGo]⟩
  | f :: fs, st, total => by
      obtain ⟨t1, h1⟩ := stepFile_collection env st f
      obtain ⟨t2, h2⟩ := runIndexerGo_collection env fs (stepFile env st f).1 (total + (stepFile env st f).2)
      refine ⟨t1 ++ t2, ?_⟩
      simp only [runIndexerGo]
      rw [h2, h1, List.append_assoc]

/-- C4: running the full scan twice with unchanged contents upserts zero
records on the second run and leaves the state untouched; any file whose
current digest equals the recorded digest is skipped entirely. -/
theorem runIndexer_idempotent (env : IndexerEnv) (st st2 : IndexerState) (f : String)
    (h2 : hashLookup st2.processedHashes f = some (env.sha256 (env.readFile f))) :
    runIndexer env (runIndexer env st).1 = ((runIndexer env st).1, 0) ∧
    stepFile env st2 f = (st2, 0) := by
  refine ⟨?_, stepFile_skip env st2 f h2⟩
  exact runIndexerGo_all_skip env env.files (runIndexer env st).1 0 fun g hg =>
    runIndexerGo_sets_all env env.files st 0 g hg

/-- A concrete indexer environment for witnesses: one file, constant contents,
the identity digest, a one-field document, embeddings that always succeed. -/
def envW : IndexerEnv :=
  ⟨["data/a.json"], fun _ => "txt", fun s => s,
    fun _ => some (Json.obj (JsonObj.cons "head" (Json.str "Alice") JsonObj.nil)),
    fun ts => some (ts.map fun _ => []), fun _ => "u"⟩

/-- A concrete state whose table already records the digest of the file. -/
def stW2 : IndexerState := ⟨[("data/a.json", "txt")], [], 0⟩

/-- Witness for C4 at a concrete environment and state. -/
theorem runIndexer_idempotent_witness :
    (hashLookup stW2.processedHashes "data/a.json" =
      some (envW.sha256 (envW.readFile "data/a.json"))) ∧
    (runIndexer envW (runIndexer envW ⟨[], [], 0⟩).1 =
        ((runIndexer envW ⟨[], [], 0⟩).1, 0) ∧
     stepFile envW stW2 "data/a.json" = (stW2, 0)) :=
  ⟨rfl, runIndexer_idempotent envW ⟨[], [], 0⟩ stW2 "data/a.json" rfl⟩

/-- C5: inside one pass, a batch whose embedding call raises contributes no
records and is not retried; every batch of the document is handed to the
embedding capability exactly once in order; the batch loop never touches the
hash table; the collection only grows; and the digest of a processed document
is recorded at the end of its iteration whatever the batch outcomes were. -/
theorem batcher_partial_failure (env : IndexerEnv) (st st0 : IndexerState)
    (b : List Chunk) (bs : List (List Chunk)) (f : String)
    (hfail : env.embed (b.map fun c => c.text) = none)
    (hnew : ¬ hashLookup st0.processedHashes f = some (env.sha256 (env.readFile f))) :
    processOneBatch env st b = (st, 0) ∧
    (processBatches env bs st).2.2 = (bs.map fun c => c.map fun x => x.text) ∧
    (processBatches env bs st).1.processedHashes = st.processedHashes ∧
    (∃ tail, (processBatches env bs st).1.collection = st.collection ++ tail) ∧
    (stepFile env st0 f).1.processedHashes =
      hashSet (st0.processedHashes) f (env.sha256 (env.readFile f)) ∧
    (∀ (fs : List String) (t : ℕ), runIndexerGo env (f :: fs) st0 t =
      runIndexerGo env fs (stepFile env st0 f).1 (t + (stepFile env st0 f).2)) ∧
    (∃ tail, (runIndexer env st).1.collection = st.collection ++ tail) := by
  refine ⟨by simp [processOneBatch, hfail], processBatches_calls env bs st,
    processBatches_hashes env bs st, processBatches_collection env bs st, ?_,
    fun fs t => rfl, runIndexerGo_collection env env.files st 0⟩
  simp [stepFile, hnew, processBatches_hashes]

/-- An indexer environment whose embedding capability always raises. -/
def envF : IndexerEnv :=
  ⟨["data/a.json"], fun _ => "txt", fun s => s,
    fun _ => some (Json.obj (JsonObj.cons "head" (Json.str "Alice") JsonObj.nil)),
    fun _ => none, fun _ => "u"⟩

/-- Witness for C5: an environment whose embedding capability always raises,
and a state that has not yet recorded the digest of the file. -/
theorem batcher_partial_failure_witness :
    (envF.embed ([(⟨"t", ⟨"a.json", "data/a.json", "t"⟩⟩ : Chunk)].map fun c => c.text) = none) ∧
    (¬ hashLookup (⟨[], [], 0⟩ : IndexerState).processedHashes "data/a.json" =
      some (envF.sha256 (envF.readFile "data/a.json"))) ∧
    (processOneBatch envF ⟨[], [], 0⟩ [⟨"t", ⟨"a.json", "data/a.json", "t"⟩⟩] = (⟨[], [], 0⟩, 0) ∧
     (processBatches envF ([] : List (List Chunk)) ⟨[], [], 0⟩).2.2 =
       (([] : List (List Chunk)).map fun c => c.map fun x => Chunk.text x) ∧
     (processBatches envF ([] : List (List Chunk)) ⟨[], [], 0⟩).1.processedHashes =
       (⟨[], [], 0⟩ : IndexerState).processedHashes ∧
     (∃ tail, (processBatches envF ([] : List (List Chunk)) ⟨[], [], 0⟩).1.collection =
        (⟨[], [], 0⟩ : IndexerState).collection ++ tail) ∧
     (stepFile envF ⟨[], [], 0⟩ "data/a.json").1.processedHashes =
       hashSet (⟨[], [], 0⟩ : IndexerState).processedHashes "data/a.json"
         (envF.sha256 (envF.readFile "data/a.json")) ∧
     (∀ (fs : List String) (t : ℕ), runIndexerGo envF ("data/a.json" :: fs) ⟨[], [], 0⟩ t =
       runIndexerGo envF fs (stepFile envF ⟨[], [], 0⟩ "data/a.json").1
         (t + (stepFile envF ⟨[], [], 0⟩ "data/a.json").2)) ∧
     (∃ tail, (runIndexer envF ⟨[], [], 0⟩).1.collection =
        (⟨[], [], 0⟩ : IndexerState).collection ++ tail)) :=
  ⟨rfl, by simp [hashLookup],
    batcher_partial_failure envF ⟨[], [], 0⟩ ⟨[], [], 0⟩
      [⟨"t", ⟨"a.json", "data/a.json", "t"⟩⟩] [] "data/a.json" rfl (by simp [hashLookup])⟩

/-- An indexer environment whose JSON parse always fails. -/
def envP : IndexerEnv :=
  ⟨["data/a.json"], fun _ => "txt", fun s => s, fun _ => none,
    fun ts => some (ts.map fun _ => []), fun _ => "u"⟩

/-- C8: an unparsable or empty document yields the empty chunk sequence, and
the indexer iteration for such a file inserts nothing, still records the
digest, and hands control back to the loop. -/
theorem extractChunks_unparsable (fp fn : String) (env : IndexerEnv)
    (st : IndexerState) (f : String)
    (hparse : env.parseJson (env.readFile f) = none)
    (hnew : ¬ hashLookup st.processedHashes f = some (env.sha256 (env.readFile f))) :
    extractChunksFromJson fp fn none = [] ∧
    stepFile env st f =
      (⟨hashSet st.processedHashes f (env.sha256 (env.readFile f)),
        st.collection, st.nextId⟩, 0) := by
  refine ⟨rfl, ?_⟩
  simp [stepFile, hnew, hparse, extractChunksFromJson, batchesOf, batchesGo, processBatches]

/-- Witness for C8: an environment whose parse always fails. -/
theorem extractChunks_unparsable_witness :
    (envP.parseJson (envP.readFile "data/a.json") = none) ∧
    (¬ hashLookup (⟨[], [], 0⟩ : IndexerState).processedHashes "data/a.json" =
      some (envP.sha256 (envP.readFile "data/a.json"))) ∧
    (extractChunksFromJson "data/a.json" "a.json" none = [] ∧
     stepFile envP ⟨[], [], 0⟩ "data/a.json" =
       (⟨hashSet (⟨[], [], 0⟩ : IndexerState).processedHashes "data/a.json"
           (envP.sha256 (envP.readFile "data/a.json")),
         (⟨[], [], 0⟩ : IndexerState).collection, (⟨[], [], 0⟩ : IndexerState).nextId⟩, 0)) :=
  ⟨rfl, by simp [hashLookup],
    extractChunks_unparsable "data/a.json" "a.json" envP ⟨[], [], 0⟩ "data/a.json" rfl
      (by simp [hashLookup])⟩

/-- The fixed instruction template of the chat route. -/
def SYSTEM_PROMPT : String :=
  "You are an official college assistant.\nAnswer ONLY using the provided context.\nIf the answer is not present in the context, say you do not have that information.\nBe concise and helpful."

/-- External collaborators of the chat route: the store contents, the
embedding capability and the generation capability (provider failures
propagate to the 500 handler and are outside this model). -/
structure ChatEnv where
  collection : List StoreRecord
  getEmbeddings : List String → List (List ℝ)
  fetchLlmResponse : String → String → String

/-- The JSON responses the route can produce on the modelled paths. -/
inductive ChatResp where
  | badRequest : String → ChatResp
  | ok : String → List String → ChatResp

/-- The Set-based deduplicated source list (insertion order, falsy sources
skipped); seen carries the members already in the set. -/
def dedupSources : List ChunkMeta → List String → List String
  | [], _ => []
  | m :: ms, seen =>
      if m.source = "" then dedupSources ms seen
      else if m.source ∈ seen then dedupSources ms seen
      else m.source :: dedupSources ms (m.source :: seen)

/-- The POST /chat handler (src/routes/chat.js).  The question argument is
none when the body has no string question field; the second component counts
the calls made to the generation capability.  The Array.isArray probe on the
embedding result takes element 0 when the result is nonempty and falls back to
the result itself (the empty vector) otherwise. -/
noncomputable def chatHandler (env : ChatEnv) (question : Option String) :
    ChatResp × ℕ :=
  match question with
  | none => (ChatResp.badRequest
      "Valid string \"question\" field is required in request body.", 0)
  | some q =>
    if q = "" then (ChatResp.badRequest
      "Valid string \"question\" field is required in request body.", 0)
    else
      let questionEmbeddingResult := env.getEmbeddings [q]
      let questionEmbedding :=
        match questionEmbeddingResult with
        | [] => []
        | e :: _ => e
      let searchResults := searchSimilarChunks questionEmbedding 5 env.collection
      let chunksText := searchResults.documents.headD []
      let chunksMeta := searchResults.metadatas.headD []
      if chunksText = [] then
        (ChatResp.ok "I don\x27t have enough information to answer that." [], 0)
      else
        let contextStr := String.intercalate "\n\n" chunksText
        let userMessage0 := "Context:\n" ++ contextStr ++ "\n\nQuestion:\n" ++ q
        let userMessage :=
          if 8000 < userMessage0.length then userMessage0.take 8000 ++ "..."
          else userMessage0
        (ChatResp.ok (env.fetchLlmResponse SYSTEM_PROMPT userMessage)
          (dedupSources chunksMeta []), 1)

/-- C7: whenever retrieval yields zero chunks, the route answers with the
canned insufficient-information message and an empty source list, as a normal
response, and the generation capability is called zero times. -/
theorem chat_no_context (env : ChatEnv) (q : String) (hq : ¬ q = "")
    (hempty : (searchSimilarChunks
        (match env.getEmbeddings [q] with | [] => [] | e :: _ => e)
        5 env.collection).documents.headD [] = []) :
    chatHandler env (some q) =
      (ChatResp.ok "I don\x27t have enough information to answer that." [], 0) := by
  have hempty2 : (searchSimilarChunks
      (match env.getEmbeddings [q] with | [] => [] | e :: _ => e)
      5 env.collection).documents.head?.getD [] = [] := by
    simpa using hempty
  simp [chatHandler, hq, hempty2]

/-- A concrete chat environment with an empty store. -/
def envC : ChatEnv := ⟨[], fun _ => [[]], fun _ _ => "ans"⟩

/-- Witness for C7 on the empty store. -/
theorem chat_no_context_witness :
    (¬ "hi" = "") ∧
    ((searchSimilarChunks
        (match envC.getEmbeddings ["hi"] with | [] => [] | e :: _ => e)
        5 envC.collection).documents.headD [] = []) ∧
    chatHandler envC (some "hi") =
      (ChatResp.ok "I don\x27t have enough information to answer that." [], 0) :=
  ⟨by decide, rfl, chat_no_context envC "hi" (by decide) rfl⟩
